import Mathlib

set_option maxHeartbeats 1000000

/- Verification development for the hierarchical (nested) state machine extension
   of a flat state machine engine (nesting.py): nested state nodes with computed
   qualified names and levels, the exit/enter walk of nested transitions, event
   trigger bubbling, the tree flattener with machine embedding, the function
   wrapper building dotted trigger namespaces, and wildcard source expansion. -/

/-- NestedState.separator. -/
def sep : String := "."

/-- A nested state node: local name segment, ignore_invalid_triggers flag and an
    optional parent (NestedState, nesting.py lines 39-59).  The enter/exit callback
    lists are opaque payload of the base engine: hook firings are tracked below by
    which node fired, so the lists themselves are not carried.  The children field
    of the source is written but only read back locally inside traverse, so it is
    handled there as a local value. -/
inductive NState : Type where
  | root (ln : String) (ig : Bool)
  | child (ln : String) (ig : Bool) (parent : NState)
deriving DecidableEq

/-- Derived level: 0 at a root, parent.level + 1 below (property level, line 49-51). -/
def NState.level : NState → Nat
  | .root _ _ => 0
  | .child _ _ p => p.level + 1

/-- Derived qualified name (property name, lines 53-55). -/
def NState.name : NState → String
  | .root ln _ => ln
  | .child ln _ p => p.name ++ sep ++ ln

/-- The parent attribute, None at a root. -/
def NState.parentOpt : NState → Option NState
  | .root _ _ => none
  | .child _ _ p => some p

/-- The ignore_invalid_triggers attribute. -/
def NState.ignoreInvalid : NState → Bool
  | .root _ ig => ig
  | .child _ ig _ => ig

/-- Errors a nested exit/enter execution can hit: a loop that never terminates
    (made visible through fuel) or an attribute access on a null parent. -/
inductive XErr : Type where
  | fuelOut
  | nullDeref
deriving DecidableEq

/-- The alignment loop of NestedState.exit_nested (lines 67-69):
    tmp_state = target_state; while self.level != tmp_state.level:
    tmp_state = target_state.parent.  The body reassigns from target_state itself
    each iteration, exactly as in the source, so the loop only ever reaches
    target_state and target_state.parent; fuel makes the executions that never
    terminate visible as .error .fuelOut. -/
def alignLoop (selfLevel : Nat) (target : NState) : Nat → Option NState → Except XErr NState
  | _, none => .error .nullDeref
  | 0, some tmp => if tmp.level = selfLevel then .ok tmp else .error .fuelOut
  | fu + 1, some tmp =>
      if tmp.level = selfLevel then .ok tmp
      else alignLoop selfLevel target fu target.parentOpt

/-- The equal-level walk of NestedState.exit_nested (lines 70-76):
    while tmp_self.level > 0 and tmp_state.parent.name != tmp_self.parent.name:
    fire tmp_self's exit and move both chains up one step.  Returns the nodes
    exited inside the loop (in firing order) together with the node the loop
    stopped on; the caller fires one final exit on that node and returns its
    level.  When tmp_self still has a parent but tmp_state does not,
    tmp_state.parent.name dereferences null. -/
def walkLoop : NState → NState → Except XErr (List NState × NState)
  | .root ln ig, _ => .ok ([], .root ln ig)
  | .child _ _ _, .root _ _ => .error .nullDeref
  | .child ln ig p, .child _ _ p2 =>
      if p2.name = p.name then .ok ([], .child ln ig p)
      else (walkLoop p p2).map (fun r => (.child ln ig p :: r.1, r.2))

/-- NestedState.exit_nested (lines 61-81).  Returns the list of nodes whose exit
    hooks fired, in firing order, and the level value returned to the caller. -/
def exit_nested (fuel : Nat) : NState → Option NState → Except XErr (List NState × Nat)
  | .root ln ig, _ => .ok ([.root ln ig], 0)
  | .child ln ig p, some t =>
      if 0 < t.level then
        if t.level < (NState.child ln ig p).level then
          (exit_nested fuel p (some t)).map (fun r => (.child ln ig p :: r.1, r.2))
        else
          match alignLoop (NState.child ln ig p).level t fuel (some t) with
          | .error e => .error e
          | .ok tmp =>
              (walkLoop (NState.child ln ig p) tmp).map
                (fun r => (r.1 ++ [r.2], r.2.level))
      else
        (exit_nested fuel p none).map (fun r => (.child ln ig p :: r.1, r.2))
  | .child ln ig p, none =>
      (exit_nested fuel p none).map (fun r => (.child ln ig p :: r.1, r.2))

/-- NestedState.enter_nested (lines 83-86).  Returns the list of nodes whose enter
    hooks fired, in firing order; a stop level that never equals a level on the
    chain sends the recursion past the root where the parent is null. -/
def enter_nested : NState → Option Nat → Except XErr (List NState)
  | s, none => .ok [s]
  | .root ln ig, some lvl =>
      if lvl = (NState.root ln ig).level then .ok [.root ln ig] else .error .nullDeref
  | .child ln ig p, some lvl =>
      if lvl = (NState.child ln ig p).level then .ok [.child ln ig p]
      else (enter_nested p (some lvl)).map (fun l => l ++ [.child ln ig p])

/-- NestedTransition._change_state (lines 89-98): exit from the current state with
    the destination as target, then enter the destination with the returned level.
    (set_state and event_data.update are the base engine's and fire no nested
    hooks.)  Returns the exit firing list and the enter firing list. -/
def change_state (fuel : Nat) (src dst : NState) : Except XErr (List NState × List NState) :=
  match exit_nested fuel src (some dst) with
  | .error e => .error e
  | .ok r =>
      match enter_nested dst (some r.2) with
      | .error e => .error e
      | .ok enters => .ok (r.1, enters)

/-- The ancestor chain of a node, leaf first, root last (inclusive). -/
def chainOf : NState → List NState
  | .root ln ig => [.root ln ig]
  | .child ln ig p => .child ln ig p :: chainOf p

/-- Lookup in an event's transition table keyed by source qualified name
    (self.transitions in NestedEvent; a dict, modelled as an association list). -/
def findTrans {A : Type} (ts : List (String × List A)) (k : String) : Option (List A) :=
  (ts.find? (fun pr => pr.1 = k)).map (fun pr => pr.2)

/-- Membership test: k in self.transitions. -/
def hasKey {A : Type} (ts : List (String × List A)) (k : String) : Bool :=
  (findTrans ts k).isSome

/-- The bubbling loop of NestedEvent.trigger (lines 104-106):
    tmp = current; while tmp.parent and tmp.name not in self.transitions:
    tmp = tmp.parent. -/
def bubble {A : Type} (ts : List (String × List A)) : NState → NState
  | .root ln ig => .root ln ig
  | .child ln ig p =>
      if hasKey ts (NState.child ln ig p).name then .child ln ig p else bubble ts p

/-- The candidate loop of NestedEvent.trigger (lines 116-120): run t.execute on
    each registered transition in order, short-circuiting on the first success.
    Transition payloads and execute belong to the base engine, so the payload type
    and execute are parameters. -/
def runTransitions {A : Type} (exec : A → Bool) : List A → Bool
  | [] => false
  | t :: rest => if exec t then true else runTransitions exec rest

/-- The exception NestedEvent.trigger can raise: MachineError (line 113). -/
inductive TrigErr : Type where
  | machineError
deriving DecidableEq

/-- NestedEvent.trigger (lines 103-120).  After bubbling, when tmp.name has no
    registration: with current_state.ignore_invalid_triggers unset it raises
    MachineError; with it set it logs a warning and falls through to the
    candidate loop.  The base Event's transitions is a defaultdict(list) (its
    own add_transition appends into transitions[source]), so the subscript at
    line 116 yields a fresh empty list for an absent key — modelled by getD [] —
    the loop body never runs and the call returns False at line 120. -/
def eventTrigger {A : Type} (exec : A → Bool) (ts : List (String × List A))
    (current : NState) : Except TrigErr Bool :=
  let tmp := bubble ts current
  if hasKey ts tmp.name then
    .ok (runTransitions exec ((findTrans ts tmp.name).getD []))
  else if current.ignoreInvalid then
    .ok (runTransitions exec ((findTrans ts tmp.name).getD []))
  else .error .machineError

/-- The attribute-name adjustment of FunctionWrapper.add (lines 22-24): a path
    segment whose first character is a digit is stored under '_' + segment.
    (The source indexes name[0], so the empty segment is out of its domain; here
    it is returned unchanged.) -/
def mangle (s : String) : String :=
  match s.toList with
  | [] => s
  | c :: _ => if c.isDigit then "_" ++ s else s

/-- FunctionWrapper (lines 12-34): a node optionally holding a callable and named
    child wrapper attributes (attributes modelled as an association list; the
    callable type is a parameter). -/
inductive FW (A : Type) : Type where
  | mk (fn : Option A) (children : List (String × FW A))

/-- The _func attribute. -/
def FW.fn {A : Type} : FW A → Option A
  | .mk f _ => f

/-- The child wrapper attributes. -/
def FW.children {A : Type} : FW A → List (String × FW A)
  | .mk _ c => c

/-- getattr on a child wrapper attribute (with hasattr = isSome). -/
def fwLookup {A : Type} (n : String) : List (String × FW A) → Option (FW A)
  | [] => none
  | pr :: rest => if pr.1 = n then some pr.2 else fwLookup n rest

/-- setattr on an existing attribute name. -/
def fwReplace {A : Type} (n : String) (c : FW A) (l : List (String × FW A)) :
    List (String × FW A) :=
  l.map (fun pr => if pr.1 = n then (n, c) else pr)

/-- FunctionWrapper.__init__ (lines 13-18) on a fresh object: a nonempty path
    builds a fresh child chain holding the callable at its end with _func = None
    along the way; an empty path stores the callable. -/
def FW.init {A : Type} (f : A) : List String → FW A
  | [] => .mk (some f) []
  | p :: ps => .mk none [(mangle p, FW.init f ps)]

/-- FunctionWrapper.add (lines 20-31): descend into an existing attribute for the
    first (adjusted) segment, otherwise create a fresh wrapper for the rest of the
    path; an empty path stores the callable on this node. -/
def FW.add {A : Type} (f : A) : FW A → List String → FW A
  | w, [] => .mk (some f) w.children
  | w, p :: ps =>
      match fwLookup (mangle p) w.children with
      | some c => .mk w.fn (fwReplace (mangle p) (FW.add f c ps) w.children)
      | none => .mk w.fn (w.children ++ [(mangle p, FW.init f ps)])

/-- Follow stored attribute names down a wrapper tree (the navigable structure the
    claims quantify over). -/
def subtreeAt {A : Type} : FW A → List String → Option (FW A)
  | w, [] => some w
  | w, q :: qs =>
      match fwLookup q w.children with
      | some c => subtreeAt c qs
      | none => none

/-- Transition payload as stored on an embedded machine's events (source, dest and
    the callback lists carried verbatim into buffered records, lines 185-195). -/
structure TransModel where
  source : String
  dest : String
  conditions : List String
  before : List String
  after : List String
deriving DecidableEq

/-- An event of an embedded machine: its transition table keyed by source name. -/
structure EventModel where
  transitions : List (String × List TransModel)
deriving DecidableEq

/-- An embedded HierarchicalMachine as traverse reads it: its state registry
    values in order and its event registry items in order. -/
structure EmbMachine where
  states : List NState
  events : List (String × EventModel)
deriving DecidableEq

/-- One element of a state specification list (traverse input, lines 148-199):
    a bare string, a dict (name / optional ignore_invalid_triggers / optional
    children / remap; on_enter and on_exit are opaque payload and carried by
    neither node identity nor any claim), a whole machine, or a prebuilt node. -/
inductive StateSpec : Type where
  | str (s : String)
  | dict (name : String) (ignore : Option Bool) (children : Option (List StateSpec))
      (remap : List (String × String))
  | mach (m : EmbMachine)
  | nstate (s : NState)

/-- A Deferred Transition Record (appended to self._buffered_transitions,
    lines 190-195). -/
structure BufTrans where
  trigger : String
  source : String
  dest : String
  conditions : List String
  before : List String
  after : List String
deriving DecidableEq

/-- Dict lookup in a remap table. -/
def remapLookup (remap : List (String × String)) (k : String) : Option String :=
  (remap.find? (fun pr => pr.1 = k)).map (fun pr => pr.2)

/-- The to_-trigger rename applied when embedding a machine (lines 180-184):
    insert the parent's leading path segment after the to_ prefix and the rest of
    the parent's path before the trigger's own path, joined with '.'. -/
def rewriteTo (trig : String) (parentName : String) : String :=
  if trig.startsWith "to_" then
    let path := (trig.drop 3).splitOn sep
    let ppath := parentName.splitOn sep
    String.intercalate "." (("to_" ++ ppath.headD "") :: (ppath.tail ++ path))
  else trig

/-- Errors traverse can hit: parent.name on a null parent while rewriting an
    embedded machine's transitions, or model fuel exhaustion. -/
inductive TravErr : Type where
  | noneParent
  | fuelOut
deriving DecidableEq

/-- The deferred record built for one embedded transition (lines 186-195): the
    source qualified name is always prefixed with the parent's qualified name;
    only the dest consults the remap table and is redirected verbatim when it is
    listed there (lines 187-189); conditions, before and after are carried
    verbatim. -/
def recordFor (trig2 pname : String) (remap : List (String × String))
    (t : TransModel) : BufTrans :=
  { trigger := trig2
    source := pname ++ sep ++ t.source
    dest := match remapLookup remap t.dest with
            | some d => d
            | none => pname ++ sep ++ t.dest
    conditions := t.conditions
    before := t.before
    after := t.after }

/-- The deferred-transition records generated for one embedded event
    (lines 179-195).  parent.name is dereferenced both by the to_ rename and by
    the source/dest prefixing, so with no parent the code fails as soon as either
    is reached. -/
def bufsForEvent (parent : Option NState) (remap : List (String × String))
    (trig : String) (ev : EventModel) : Except TravErr (List BufTrans) :=
  match parent with
  | none =>
      if trig.startsWith "to_" then .error .noneParent
      else if ev.transitions.any (fun pr => !pr.2.isEmpty) then .error .noneParent
      else .ok []
  | some p =>
      .ok (ev.transitions.flatMap (fun pr =>
        pr.2.map (recordFor (rewriteTo trig p.name) p.name remap)))

/-- All records generated for an embedded machine's events, in registry order. -/
def bufsForEvents (parent : Option NState) (remap : List (String × String)) :
    List (String × EventModel) → Except TravErr (List BufTrans)
  | [] => .ok []
  | (trig, ev) :: rest =>
      match bufsForEvent parent remap trig ev with
      | .error e => .error e
      | .ok l =>
          match bufsForEvents parent remap rest with
          | .error e => .error e
          | .ok l2 => .ok (l ++ l2)

/-- NestedState construction with an optional parent parameter. -/
def mkState (n : String) (ig : Bool) (parent : Option NState) : NState :=
  match parent with
  | none => .root n ig
  | some p => .child n ig p

/-- The in-place s.parent = parent assignment of line 177, as the node value it
    produces. -/
def reparent (st : NState) (parent : Option NState) : NState :=
  match st, parent with
  | .root ln ig, none => .root ln ig
  | .root ln ig, some p => .child ln ig p
  | .child ln ig _, none => .root ln ig
  | .child ln ig _, some p => .child ln ig p

/-- The loop body of HierarchicalMachine.traverse (lines 148-200), fuelled so that
    every recursive step is structural.  Arguments: fuel, the resolved ignore
    flag, parent, remap, the remaining spec elements, the new_states accumulator
    and the buffered-transition list.  The accumulator is threaded exactly as the
    source's new_states local is: in the machine branch line 175 rebinds
    new_states to the filtered embedded states, discarding what was accumulated,
    and line 200 then extends that rebound list with tmp_states (the same
    states), so the branch leaves ns ++ ns as the accumulator. -/
def traverseAux : Nat → Bool → Option NState → List (String × String) →
    List StateSpec → List NState → List BufTrans →
    Except TravErr (List NState × List BufTrans)
  | _, _, _, _, [], acc, bufs => .ok (acc, bufs)
  | 0, _, _, _, _ :: _, _, _ => .error .fuelOut
  | fu + 1, ig, parent, remap, s :: rest, acc, bufs =>
      match s with
      | .str n =>
          if (remapLookup remap n).isSome then
            traverseAux fu ig parent remap rest acc bufs
          else
            traverseAux fu ig parent remap rest (acc ++ [mkState n ig parent]) bufs
      | .dict n dIg childrenOpt dRemap =>
          match childrenOpt with
          | some cs =>
              let p := mkState n ig parent
              match traverseAux fu ig (some p) dRemap cs [] bufs with
              | .error e => .error e
              | .ok r =>
                  traverseAux fu ig parent remap rest (acc ++ p :: r.1) r.2
          | none =>
              traverseAux fu ig parent remap rest
                (acc ++ [mkState n (dIg.getD ig) parent]) bufs
      | .mach m =>
          let ns := (m.states.filter (fun st => st.level == 0 &&
                      !(remapLookup remap st.name).isSome)).map
                    (fun st => reparent st parent)
          match bufsForEvents parent remap m.events with
          | .error e => .error e
          | .ok newBufs =>
              traverseAux fu ig parent remap rest (ns ++ ns) (bufs ++ newBufs)
      | .nstate st =>
          traverseAux fu ig parent remap rest (acc ++ [st]) bufs

/-- HierarchicalMachine.traverse (lines 141-201): resolve the ignore flag against
    the machine-wide default and run the loop with an empty accumulator.  Returns
    the flattened node list and the deferred transition records generated. -/
def traverse (fuel : Nat) (machineIgnore : Bool) (iit : Option Bool)
    (parent : Option NState) (remap : List (String × String))
    (specs : List StateSpec) : Except TravErr (List NState × List BufTrans) :=
  traverseAux fuel (iit.getD machineIgnore) parent remap specs [] []

/-- A stored transition record of the orchestrator (what the base engine keeps
    per add_transition call: the trigger, the expanded source list and the dest). -/
structure TransRecord where
  trigger : String
  sources : List String
  dest : String
deriving DecidableEq

/-- The orchestrator state relevant to wildcard expansion: the state registry
    values in registration order and the stored transition records. -/
structure MiniMachine where
  states : List NState
  transitions : List TransRecord
deriving DecidableEq

/-- The source expansion of HierarchicalMachine.add_transition (lines 216-217):
    the literal '*' becomes the qualified names of the states registered now. -/
def expandSource (m : MiniMachine) (source : String) : List String :=
  if source = "*" then m.states.map NState.name else [source]

/-- HierarchicalMachine.add_transition (lines 214-232) restricted to what it does
    with source and the registries: expand the source against the current state
    registry and delegate storage to the base engine (the event construction and
    model-attribute binding of lines 219-230 touch neither registry). -/
def add_transition (m : MiniMachine) (trigger source dest : String) : MiniMachine :=
  { m with transitions := m.transitions ++ [⟨trigger, expandSource m source, dest⟩] }

/-- Registering one more state afterwards (the base engine appends to the state
    registry; transitions already stored are not revisited). -/
def add_state (m : MiniMachine) (s : NState) : MiniMachine :=
  { m with states := m.states ++ [s] }

/-- All stored sources for a trigger. -/
def sourcesFor (m : MiniMachine) (trigger : String) : List String :=
  (m.transitions.filter (fun r => r.trigger = trigger)).flatMap (fun r => r.sources)

/-- Object-graph view of the nodes, used for the frame/aliasing behaviour of
    traverse: a node object is a heap cell (local name, parent reference by id),
    so that the in-place s.parent = parent of line 177 is visible to every other
    holder of the same reference, the embedded machine included. -/
structure NodeData where
  ln : String
  parent : Option Nat
deriving DecidableEq

/-- The node heap: association list from object id to node data. -/
abbrev Heap : Type := List (Nat × NodeData)

/-- Dereference an object id. -/
def hget : Heap → Nat → Option NodeData
  | [], _ => none
  | pr :: rest, i => if pr.1 = i then some pr.2 else hget rest i

/-- Overwrite the cell of an object id in place. -/
def hset (h : Heap) (i : Nat) (d : NodeData) : Heap :=
  h.map (fun pr => if pr.1 = i then (i, d) else pr)

/-- Derived level over the heap (fuelled walk up the parent references;
    the parent chain of a well-formed graph is finite). -/
def levelH (h : Heap) : Nat → Nat → Nat
  | 0, _ => 0
  | fu + 1, i =>
      match hget h i with
      | some d =>
          match d.parent with
          | some p => levelH h fu p + 1
          | none => 0
      | none => 0

/-- Derived qualified name over the heap. -/
def nameH (h : Heap) : Nat → Nat → String
  | 0, i => ((hget h i).map (fun d => d.ln)).getD ""
  | fu + 1, i =>
      match hget h i with
      | some d =>
          match d.parent with
          | some p => nameH h fu p ++ sep ++ d.ln
          | none => d.ln
      | none => ""

/-- The ids on the parent chain of an object (inclusive), up to the fuel. -/
def chainH (h : Heap) : Nat → Nat → List Nat
  | 0, i => [i]
  | fu + 1, i =>
      i :: (match hget h i with
            | some d =>
                match d.parent with
                | some p => chainH h fu p
                | none => []
            | none => [])

/-- One s.parent = parent assignment of line 177 on the heap: overwrite the
    parent reference of the object i in place. -/
def setParentObj (parentId : Nat) (hh : Heap) (i : Nat) : Heap :=
  match hget hh i with
  | some d => hset hh i { d with parent := some parentId }
  | none => hh

/-- The in-place part of traverse's machine branch (lines 174-177): filter the
    donor machine's registry values to the level-0 nodes whose name is not in
    remap, then assign parent on each of those same objects.  Returns the updated
    heap and the ids the branch collected (the donor keeps holding these ids). -/
def embedStates (h : Heap) (fu : Nat) (donorIds : List Nat) (parentId : Nat)
    (remap : List String) : Heap × List Nat :=
  let ns := donorIds.filter
    (fun i => levelH h fu i == 0 && !(remap.contains (nameH h fu i)))
  (ns.foldl (setParentObj parentId) h, ns)

/-- Dict cell for the dict-shaped branch: the keys of a spec dict that traverse
    reads or writes (name; ignore_invalid_triggers and parent, as optional keys). -/
structure DictData where
  name : String
  ignore : Option Bool
  parent : Option Nat
deriving DecidableEq

/-- The dict heap: association list from dict object id to its data. -/
abbrev DictHeap : Type := List (Nat × DictData)

/-- Dereference a dict id. -/
def dget : DictHeap → Nat → Option DictData
  | [], _ => none
  | pr :: rest, i => if pr.1 = i then some pr.2 else dget rest i

/-- A fresh id, larger than every id in use. -/
def freshId (dh : DictHeap) : Nat := (dh.map (fun pr => pr.1)).foldr max 0 + 1

/-- The dict-shaped branch of traverse up to its key writes (lines 156-160):
    state = copy.deepcopy(state) allocates a new dict object, then
    ignore_invalid_triggers is defaulted if the key is absent and parent is set —
    both on the copy.  Returns the heap with the copy and the copy's id. -/
def dictBranchCopy (dh : DictHeap) (did : Nat) (ig : Bool) (parent : Option Nat) :
    DictHeap × Option Nat :=
  match dget dh did with
  | none => (dh, none)
  | some d =>
      let nid := freshId dh
      let d2 : DictData :=
        { name := d.name, ignore := some (d.ignore.getD ig), parent := parent }
      (dh ++ [(nid, d2)], some nid)

/-- Build a descendant chain below a node: the list holds (local name, ignore
    flag) pairs from the leaf upward, excluding the given ancestor.
    Characterisation helper for stating which nodes a transition touches. -/
def build (a : NState) : List (String × Bool) → NState
  | [] => a
  | pr :: rest => .child pr.1 pr.2 (build a rest)

/-- The strict descendants of the given ancestor along such a chain, leaf first. -/
def nodesDown (a : NState) : List (String × Bool) → List NState
  | [] => []
  | pr :: rest => .child pr.1 pr.2 (build a rest) :: nodesDown a rest

/- Concrete fixtures for witnesses, counterexamples and failing inputs:
   the tree A containing B and C, B containing D, D containing F. -/

/-- Root state A. -/
def stA : NState := .root "A" false

/-- State A.B. -/
def stB : NState := .child "B" false stA

/-- State A.C. -/
def stC : NState := .child "C" false stA

/-- State A.B.D. -/
def stD : NState := .child "D" false stB

/-- State A.B.D.F (three levels below the root). -/
def stF : NState := .child "F" false stD

/-- Parent node N used for embeddings. -/
def stN : NState := .root "N" false

/-- An embeddable machine X with root states P and Q and one transition
    go: P -> Q. -/
def machX : EmbMachine :=
  { states := [.root "P" false, .root "Q" false]
  , events := [("go", ⟨[("P", [⟨"P", "Q", [], [], []⟩])]⟩)] }

/-- Whether an Except value completed without an exception. -/
def isOkE {E A : Type} : Except E A → Bool
  | .ok _ => true
  | .error _ => false

/-- A function-wrapper fixture with the sibling attributes a and b. -/
def w8 : FW Nat := .mk none [("a", .mk (some 1) []), ("b", .mk (some 2) [])]

deriving instance DecidableEq for Except

/- ------------------------------------------------------------------ theorems -/

/-- When no qualified name on the ancestor chain is registered, bubbling stops at
    the root and the root's name is also unregistered. -/
theorem bubble_nokey {A : Type} (ts : List (String × List A)) :
    ∀ current : NState, (∀ n ∈ chainOf current, hasKey ts n.name = false) →
      hasKey ts (bubble ts current).name = false := by
  intro current
  induction current with
  | root ln ig =>
      intro h
      simpa [bubble] using h (NState.root ln ig) (by simp [chainOf])
  | child ln ig p ih =>
      intro h
      have hk := h (NState.child ln ig p) (by simp [chainOf])
      simp only [bubble, hk, Bool.false_eq_true, if_false]
      exact ih (fun n hn => h n (by simp [chainOf]; right; exact hn))

/-- C1: with the active leaf's ignore_invalid_triggers set, firing a trigger for
    which no node on the ancestor chain (inclusive) has a registration logs the
    condition (line 111) and returns false from the trigger call (line 120)
    without raising: the base Event's transitions is a defaultdict(list), so
    the loop header at line 116 iterates a fresh empty list. -/
theorem c1_ignored_trigger_returns_false {A : Type} (exec : A → Bool)
    (ts : List (String × List A)) (current : NState)
    (hnone : ∀ n ∈ chainOf current, hasKey ts n.name = false)
    (hig : current.ignoreInvalid = true) :
    eventTrigger exec ts current = .ok false := by
  have hb := bubble_nokey ts current hnone
  have hft : findTrans ts (bubble ts current).name = none := by
    simp only [hasKey] at hb
    cases hft2 : findTrans ts (bubble ts current).name with
    | none => rfl
    | some l => rw [hft2] at hb; simp at hb
  simp [eventTrigger, hb, hig, hft, runTransitions]

/-- Witness for C1 at a concrete input: a single ignoring root state and an empty
    transition table; the call reports false, not an exception. -/
theorem c1_witness :
    eventTrigger (fun _ : Nat => false) [] (NState.root "A" true) = .ok false :=
  c1_ignored_trigger_returns_false (fun _ : Nat => false) [] (NState.root "A" true)
    (by decide) (by decide)

/-- Once tmp_state.level differs from self.level and target_state.parent's level
    differs too, the alignment loop never terminates: its body reassigns
    tmp_state from target_state, so no iteration makes progress. -/
theorem alignLoop_stuck (sl : Nat) (t p : NState) (hp : t.parentOpt = some p)
    (hnp : p.level ≠ sl) :
    ∀ fu : Nat, ∀ tmp : NState, tmp.level ≠ sl →
      alignLoop sl t fu (some tmp) = .error .fuelOut := by
  intro fu
  induction fu with
  | zero => intro tmp h; simp [alignLoop, h]
  | succ k ih =>
      intro tmp h
      simp only [alignLoop, hp, h, if_false]
      exact ih p hnp

/-- C2: the claim says exit_nested terminates for every pair of nodes in a finite
    tree, in particular when the destination is two or more levels deeper than
    the source.  On source A.C (level 1) and destination A.B.D.F (level 3) the
    level-alignment step loops forever, because line 69 reassigns
    tmp_state = target_state.parent instead of tmp_state.parent: no amount of
    fuel completes the call. -/
theorem c2_exit_nested_never_terminates (fuel : Nat) :
    exit_nested fuel stC (some stF) = .error .fuelOut := by
  have halign : alignLoop (NState.child "C" false stA).level stF fuel (some stF) =
      .error .fuelOut := by
    cases fuel with
    | zero => decide
    | succ k =>
        simp only [alignLoop]
        rw [if_neg (by decide)]
        exact alignLoop_stuck _ stF stD rfl (by decide) k stD (by decide)
  show exit_nested fuel (NState.child "C" false stA) (some stF) = .error .fuelOut
  simp only [exit_nested]
  rw [if_pos (by decide), if_neg (by decide), halign]

/-- A stop level at most the node's level is reached on the chain, so
    enter_nested completes. -/
theorem enter_nested_le : ∀ (s : NState) (lvl : Nat), lvl ≤ s.level →
    isOkE (enter_nested s (some lvl)) = true := by
  intro s
  induction s with
  | root ln ig =>
      intro lvl h
      have h0 : lvl = 0 := Nat.le_zero.mp h
      subst h0
      simp [enter_nested, NState.level, isOkE]
  | child ln ig p ih =>
      intro lvl h
      by_cases he : lvl = (NState.child ln ig p).level
      · simp [enter_nested, he, isOkE]
      · have hle : lvl ≤ p.level := by
          simp only [NState.level] at h he
          omega
        simp only [enter_nested, he, if_false]
        have hok := ih lvl hle
        cases hin : enter_nested p (some lvl) with
        | ok l => simp [Except.map, isOkE]
        | error e => rw [hin] at hok; simp [isOkE] at hok

/-- A stop level above the node's level never matches, so the recursion runs past
    the root and dereferences the null parent. -/
theorem enter_nested_gt : ∀ (s : NState) (lvl : Nat), s.level < lvl →
    enter_nested s (some lvl) = .error .nullDeref := by
  intro s
  induction s with
  | root ln ig =>
      intro lvl h
      have hne : ¬ (lvl = (NState.root ln ig).level) := by
        simp only [NState.level] at h ⊢
        omega
      simp [enter_nested, hne]
  | child ln ig p ih =>
      intro lvl h
      have hne : ¬ (lvl = (NState.child ln ig p).level) := by
        simp only [NState.level] at h ⊢
        omega
      have hp : p.level < lvl := by
        simp only [NState.level] at h
        omega
      simp only [enter_nested, hne, if_false, ih lvl hp]
      rfl

/-- C10: enter_nested completes without dereferencing a null parent exactly when
    the stop level is None or at most the node's own level; because line 84
    compares the stop level with != rather than with <, a stop level strictly
    greater than the node's level sends the recursion past the root, where the
    parent reference is null. -/
theorem c10_enter_nested_guard (s : NState) (lvl : Nat) :
    (isOkE (enter_nested s (some lvl)) = true ↔ lvl ≤ s.level) ∧
    (s.level < lvl → enter_nested s (some lvl) = .error .nullDeref) ∧
    isOkE (enter_nested s none) = true := by
  refine ⟨⟨?_, enter_nested_le s lvl⟩, enter_nested_gt s lvl, by simp [enter_nested, isOkE]⟩
  intro hok
  by_contra hgt
  push_neg at hgt
  rw [enter_nested_gt s lvl hgt] at hok
  simp [isOkE] at hok

/-- Witness for C10 on A.B (level 1): stop level 2 dereferences the null parent,
    stop level 1 completes. -/
theorem c10_witness :
    enter_nested stB (some 2) = .error .nullDeref ∧
    isOkE (enter_nested stB (some 1)) = true :=
  ⟨(c10_enter_nested_guard stB 2).2.1 (by decide),
   (c10_enter_nested_guard stB 1).1.mpr (by decide)⟩

/-- C3 counterexample: for source A.B.D (level N = 2) and destination A.B
    (level M = 1) the deepest common ancestor of the two chains is A.B itself
    (level L = 1).  The claim then requires exactly N−L = 1 exit hook (A.B.D
    only), M−L = 0 enter hooks, and no hook at all on the common ancestor A.B;
    the code fires exits on A.B.D and on A.B and an enter on A.B. -/
theorem c3_counterexample :
    change_state 1 stD stB = .ok ([stD, stB], [stB]) ∧
    change_state 1 stD stB ≠ .ok ([stD], []) := by
  constructor
  · decide
  · decide

/-- C4: the claim says the flat list returned by traverse contains every declared
    node exactly once, in particular that nodes from elements preceding an
    embedded machine stay in the output and embedded nodes appear once.  On
    traverse([a-as-string, machine X(P, Q; go: P to Q)], parent = N) the machine
    branch rebinds the new_states accumulator at line 175 and then extends the
    rebound list with the same tmp_states at line 200, so the node N.a is dropped
    and N.P, N.Q each appear twice. -/
theorem c4_traverse_drops_and_duplicates :
    traverse 3 false none (some stN) [] [.str "a", .mach machX] =
      .ok ([.child "P" false stN, .child "Q" false stN,
            .child "P" false stN, .child "Q" false stN],
           [⟨"go", "N.P", "N.Q", [], [], []⟩]) := by decide

/-- C5 counterexample: embedding machine X under N with remap P -> X.  The
    transition go has source P, which is listed in remap, yet the generated
    record's source is the re-prefixed "N.P", not the remapped "X": remap is
    honoured for dest only, refuting the claim that a remapped name is replaced
    verbatim whether it appears as source or as dest. -/
theorem c5_counterexample_source_still_prefixed :
    traverse 3 false none (some stN) [("P", "X")] [.mach machX] =
      .ok ([.child "Q" false stN, .child "Q" false stN],
           [⟨"go", "N.P", "N.Q", [], [], []⟩]) ∧
    ("N.P" : String) ≠ "X" := by
  constructor
  · decide
  · decide

/-- An exhausted spec list returns the accumulators untouched, whatever the fuel. -/
theorem traverseAux_nil (fu : Nat) (ig : Bool) (parent : Option NState)
    (remap : List (String × String)) (acc : List NState) (bufs : List BufTrans) :
    traverseAux fu ig parent remap [] acc bufs = .ok (acc, bufs) := by
  cases fu <;> rfl

/-- With a parent present, the record list generated for an embedded machine's
    events is the per-transition map of recordFor. -/
theorem bufsForEvents_some (p : NState) (remap : List (String × String)) :
    ∀ evs : List (String × EventModel),
      bufsForEvents (some p) remap evs =
        .ok (evs.flatMap (fun ev =>
          ev.2.transitions.flatMap (fun pr =>
            pr.2.map (recordFor (rewriteTo ev.1 p.name) p.name remap)))) := by
  intro evs
  induction evs with
  | nil => rfl
  | cons ev rest ih =>
      simp only [bufsForEvents, bufsForEvent, ih, List.flatMap_cons]

/-- C5 amended: every transition of a machine embedded under a parent node
    yields a deferred record whose source is always re-prefixed with the parent's
    qualified name — also when the source name appears in the remap table — and
    whose dest is the remapped external name verbatim when the dest appears in
    remap, the re-prefixed name otherwise (recordFor). -/
theorem c5_amended_remap_dest_only (fu : Nat) (mi : Bool) (iit : Option Bool)
    (p : NState) (remap : List (String × String)) (m : EmbMachine) :
    traverse (fu + 1) mi iit (some p) remap [.mach m] =
      .ok (((m.states.filter (fun st => st.level == 0 &&
              !(remapLookup remap st.name).isSome)).map (fun st => reparent st (some p))) ++
           ((m.states.filter (fun st => st.level == 0 &&
              !(remapLookup remap st.name).isSome)).map (fun st => reparent st (some p))),
           m.events.flatMap (fun ev =>
             ev.2.transitions.flatMap (fun pr =>
               pr.2.map (recordFor (rewriteTo ev.1 p.name) p.name remap)))) := by
  have hunf : traverse (fu + 1) mi iit (some p) remap [.mach m] =
      traverseAux (fu + 1) (iit.getD mi) (some p) remap [.mach m] [] [] := rfl
  rw [hunf, traverseAux.eq_def]
  simp only [bufsForEvents_some p remap m.events]
  rw [traverseAux_nil]
  simp

/-- find? on a cons whose head satisfies the predicate. -/
theorem find?_cons_pos {A : Type} (p : A → Bool) (a : A) (l : List A)
    (h : p a = true) : (a :: l).find? p = some a := by
  simp [List.find?, h]

/-- find? on a cons whose head fails the predicate. -/
theorem find?_cons_neg {A : Type} (p : A → Bool) (a : A) (l : List A)
    (h : p a = false) : (a :: l).find? p = l.find? p := by
  simp [List.find?, h]

/-- Bubbling lands exactly on the first node of the ancestor chain whose
    qualified name has a registration, when one exists. -/
theorem bubble_find {A : Type} (ts : List (String × List A)) :
    ∀ (current nearest : NState),
      (chainOf current).find? (fun n => hasKey ts n.name) = some nearest →
      bubble ts current = nearest ∧ hasKey ts nearest.name = true := by
  intro current
  induction current with
  | root ln ig =>
      intro nearest h
      cases hk : hasKey ts (NState.root ln ig).name with
      | true =>
          rw [chainOf, find?_cons_pos (fun n => hasKey ts n.name) (NState.root ln ig) [] hk,
            Option.some.injEq] at h
          subst h
          exact ⟨rfl, hk⟩
      | false =>
          rw [chainOf, find?_cons_neg (fun n => hasKey ts n.name) (NState.root ln ig) [] hk] at h
          simp [List.find?] at h
  | child ln ig p ih =>
      intro nearest h
      cases hk : hasKey ts (NState.child ln ig p).name with
      | true =>
          rw [chainOf, find?_cons_pos (fun n => hasKey ts n.name) (NState.child ln ig p)
            (chainOf p) hk, Option.some.injEq] at h
          subst h
          exact ⟨by simp [bubble, hk], hk⟩
      | false =>
          rw [chainOf, find?_cons_neg (fun n => hasKey ts n.name) (NState.child ln ig p)
            (chainOf p) hk] at h
          obtain ⟨hb, hkey⟩ := ih nearest h
          refine ⟨?_, hkey⟩
          simp only [bubble, hk, Bool.false_eq_true, if_false]
          exact hb

/-- C6: trigger resolution walks the parent chain from the active leaf
    (inclusive) and executes, in registration order with first-success
    short-circuit, exactly the transition list registered under the qualified
    name of the first chain node that has a registration for the event; hence an
    ancestor-only declaration is invokable from every descendant leaf, and the
    declaration nearest to the leaf wins over any farther one. -/
theorem c6_nearest_declaration_wins {A : Type} (exec : A → Bool)
    (ts : List (String × List A)) (current nearest : NState)
    (hfind : (chainOf current).find? (fun n => hasKey ts n.name) = some nearest) :
    eventTrigger exec ts current =
      .ok (runTransitions exec ((findTrans ts nearest.name).getD [])) := by
  obtain ⟨hb, hk⟩ := bubble_find ts current nearest hfind
  simp [eventTrigger, hb, hk]

/-- Witness for C6: the trigger is declared only on the root A with a single
    passing transition; fired from the leaf A.B it resolves to A's list and
    succeeds. -/
theorem c6_witness :
    eventTrigger (fun t : Nat => t == 3) [("A", [3])] stB = .ok true :=
  c6_nearest_declaration_wins (fun t : Nat => t == 3) [("A", [3])] stB stA (by decide)

/-- C7: the literal '*' as add_transition source expands, at the moment of the
    call, to exactly the qualified names of the currently registered states; a
    state registered afterwards is not included in the stored record. -/
theorem c7_wildcard_expands_at_call_time (m : MiniMachine) (trig dest : String)
    (s2 : NState) (hfresh : ∀ r ∈ m.transitions, r.trigger ≠ trig) :
    sourcesFor (add_state (add_transition m trig "*" dest) s2) trig =
      m.states.map NState.name ∧
    (s2.name ∉ m.states.map NState.name →
      s2.name ∉ sourcesFor (add_state (add_transition m trig "*" dest) s2) trig) := by
  have hfil : m.transitions.filter (fun r => r.trigger = trig) = [] := by
    rw [List.filter_eq_nil_iff]
    intro r hr
    simp [hfresh r hr]
  have h1 : sourcesFor (add_state (add_transition m trig "*" dest) s2) trig =
      m.states.map NState.name := by
    simp [sourcesFor, add_state, add_transition, expandSource, List.filter_append, hfil]
  exact ⟨h1, fun hm => h1 ▸ hm⟩

/-- Witness for C7: a machine with states A and A.B; after adding a wildcard
    transition and then registering Z, the stored sources are still A and A.B. -/
theorem c7_witness :
    sourcesFor (add_state (add_transition ⟨[stA, stB], []⟩ "go" "*" "A")
        (NState.root "Z" false)) "go" = ["A", "A.B"] ∧
    (("Z" : String) ∉ (["A", "A.B"] : List String) →
      ("Z" : String) ∉ sourcesFor (add_state (add_transition ⟨[stA, stB], []⟩ "go" "*" "A")
        (NState.root "Z" false)) "go") := by
  have h := c7_wildcard_expands_at_call_time ⟨[stA, stB], []⟩ "go" "A"
    (NState.root "Z" false) (by simp)
  constructor
  · rw [h.1]
    decide
  · intro hz
    have h2 := h.2 (by decide)
    rw [h.1]
    decide

/-- Replacing one attribute leaves lookups of other names unchanged. -/
theorem fwLookup_replace_ne {A : Type} (a n : String) (c : FW A) :
    ∀ l : List (String × FW A), a ≠ n →
      fwLookup a (fwReplace n c l) = fwLookup a l := by
  intro l h
  induction l with
  | nil => rfl
  | cons hd tl ih =>
      by_cases hh : hd.1 = n
      · simp only [fwReplace, List.map_cons, if_pos hh, fwLookup]
        rw [if_neg (fun he : n = a => h he.symm),
            if_neg (fun he : hd.1 = a => h (hh ▸ he.symm ▸ rfl))]
        simpa [fwReplace] using ih
      · simp only [fwReplace, List.map_cons, if_neg hh, fwLookup]
        by_cases ha : hd.1 = a
        · rw [if_pos ha, if_pos ha]
        · rw [if_neg ha, if_neg ha]
          simpa [fwReplace] using ih

/-- Replacing an existing attribute makes lookups of its name return the
    replacement. -/
theorem fwLookup_replace_self {A : Type} (n : String) (c : FW A) :
    ∀ l : List (String × FW A), (fwLookup n l).isSome = true →
      fwLookup n (fwReplace n c l) = some c := by
  intro l
  induction l with
  | nil => intro h; simp [fwLookup] at h
  | cons hd tl ih =>
      intro h
      by_cases hh : hd.1 = n
      · simp only [fwReplace, List.map_cons, if_pos hh, fwLookup]
        simp
      · simp only [fwReplace, List.map_cons, if_neg hh, fwLookup, if_neg hh]
        simp only [fwLookup, if_neg hh] at h
        simpa [fwReplace] using ih h

/-- Appending a fresh attribute leaves lookups of other names unchanged. -/
theorem fwLookup_append_ne {A : Type} (a n : String) (x : FW A) :
    ∀ l : List (String × FW A), a ≠ n →
      fwLookup a (l ++ [(n, x)]) = fwLookup a l := by
  intro l h
  induction l with
  | nil =>
      show fwLookup a [(n, x)] = fwLookup a []
      simp only [fwLookup]
      rw [if_neg (fun he : n = a => h he.symm)]
  | cons hd tl ih =>
      by_cases ha : hd.1 = a
      · simp only [List.cons_append, fwLookup, if_pos ha]
      · simp only [List.cons_append, fwLookup, if_neg ha]
        exact ih

/-- Appending an attribute that was absent makes lookups of its name return it. -/
theorem fwLookup_append_self {A : Type} (n : String) (x : FW A) :
    ∀ l : List (String × FW A), fwLookup n l = none →
      fwLookup n (l ++ [(n, x)]) = some x := by
  intro l
  induction l with
  | nil => intro h; simp [fwLookup]
  | cons hd tl ih =>
      intro h
      by_cases hh : hd.1 = n
      · simp [fwLookup, hh] at h
      · simp only [fwLookup, if_neg hh] at h
        simp only [List.cons_append, fwLookup, if_neg hh]
        exact ih h

/-- A freshly built wrapper chain holds nothing away from its own path. -/
theorem subtreeAt_init_none {A : Type} (f : A) :
    ∀ (ps : List String) (qs : List String),
      (ps.map mangle).take qs.length ≠ qs →
      qs.take (ps.map mangle).length ≠ ps.map mangle →
      subtreeAt (FW.init f ps) qs = none := by
  intro ps
  induction ps with
  | nil =>
      intro qs h1 h2
      simp at h2
  | cons p ps2 ih =>
      intro qs h1 h2
      cases qs with
      | nil => simp at h1
      | cons a qs2 =>
          by_cases ha : a = mangle p
          · subst ha
            simp only [FW.init, subtreeAt, FW.children, fwLookup, if_pos rfl]
            apply ih
            · intro hc
              apply h1
              simp only [List.map_cons, List.length_cons, List.take_succ_cons, hc]
            · intro hc
              apply h2
              simp only [List.map_cons, List.length_cons, List.take_succ_cons, hc]
          · simp only [FW.init, subtreeAt, FW.children, fwLookup]
            rw [if_neg (fun he : mangle p = a => ha he.symm)]

/-- One unfolding step of FunctionWrapper.add on a nonempty path. -/
theorem FW.add_cons {A : Type} (f : A) (wf : Option A)
    (wc : List (String × FW A)) (p : String) (ps : List String) :
    FW.add f (FW.mk wf wc) (p :: ps) =
      (match fwLookup (mangle p) wc with
       | some c => FW.mk wf (fwReplace (mangle p) (FW.add f c ps) wc)
       | none => FW.mk wf (wc ++ [(mangle p, FW.init f ps)])) := rfl

/-- One unfolding step of subtreeAt on a nonempty lookup path. -/
theorem subtreeAt_cons {A : Type} (wf : Option A) (wc : List (String × FW A))
    (a : String) (qs : List String) :
    subtreeAt (FW.mk wf wc) (a :: qs) =
      (match fwLookup a wc with
       | some c => subtreeAt c qs
       | none => none) := rfl

/-- Adding a path only touches wrapper nodes along the (adjusted) path: any
    lookup path that diverges from it before either ends is resolved exactly as
    before the call. -/
theorem subtreeAt_add_preserved {A : Type} (f : A) :
    ∀ (path : List String) (w : FW A) (q : List String),
      (path.map mangle).take q.length ≠ q →
      q.take (path.map mangle).length ≠ path.map mangle →
      subtreeAt (FW.add f w path) q = subtreeAt w q := by
  intro path
  induction path with
  | nil =>
      intro w q h1 h2
      simp at h2
  | cons p ps ih =>
      intro w q h1 h2
      obtain ⟨wf, wc⟩ := w
      cases q with
      | nil => simp at h1
      | cons a qs =>
          have hsh1 : a = mangle p → (ps.map mangle).take qs.length ≠ qs := by
            intro ha hc
            apply h1
            rw [List.map_cons, List.length_cons, List.take_succ_cons, hc, ha]
          have hsh2 : a = mangle p → qs.take (ps.map mangle).length ≠ ps.map mangle := by
            intro ha hc
            apply h2
            rw [List.map_cons, List.length_cons, List.take_succ_cons, hc, ha]
          cases hlk : fwLookup (mangle p) wc with
          | some c =>
              simp only [FW.add_cons, hlk]
              by_cases ha : a = mangle p
              · rw [subtreeAt_cons, subtreeAt_cons, ha,
                    fwLookup_replace_self (mangle p) (FW.add f c ps) wc
                      (by rw [hlk]; rfl),
                    hlk]
                exact ih c qs (hsh1 ha) (hsh2 ha)
              · rw [subtreeAt_cons, subtreeAt_cons,
                    fwLookup_replace_ne a (mangle p) (FW.add f c ps) wc ha]
          | none =>
              simp only [FW.add_cons, hlk]
              by_cases ha : a = mangle p
              · rw [subtreeAt_cons, subtreeAt_cons, ha,
                    fwLookup_append_self (mangle p) (FW.init f ps) wc hlk,
                    hlk]
                exact subtreeAt_init_none f ps qs (hsh1 ha) (hsh2 ha)
              · rw [subtreeAt_cons, subtreeAt_cons,
                    fwLookup_append_ne a (mangle p) (FW.init f ps) wc ha]

/-- Every stored attribute name starts with a non-digit: digit-leading segments
    are stored with a '_' prefix, other segments are unchanged. -/
theorem mangle_head_not_digit (s : String) :
    ((mangle s).toList.head?.all (fun c => !c.isDigit)) = true := by
  unfold mangle
  cases hs : s.toList with
  | nil =>
      have hs2 : s.data = [] := hs
      simp [hs2]
  | cons c rest =>
      have hs2 : s.data = c :: rest := hs
      by_cases hd : c.isDigit
      · simp only [hd, if_pos rfl]
        have hap : ("_" ++ s).toList = '_' :: s.toList := rfl
        simp [hap]
      · simp [hd, hs2]

/-- C8: FunctionWrapper.add preserves every sibling subtree that existed before
    the call (existing intermediate attributes are descended into, never
    replaced; any lookup path diverging from the added path resolves as before),
    and every path segment with a leading digit is stored under a name whose
    first character is the non-digit '_'. -/
theorem c8_add_preserves_siblings {A : Type} (f : A) :
    (∀ (w : FW A) (path q : List String),
      (path.map mangle).take q.length ≠ q →
      q.take (path.map mangle).length ≠ path.map mangle →
      subtreeAt (FW.add f w path) q = subtreeAt w q) ∧
    (∀ s : String, ((mangle s).toList.head?.all (fun c => !c.isDigit)) = true) :=
  ⟨fun w path q h1 h2 => subtreeAt_add_preserved f path w q h1 h2,
   mangle_head_not_digit⟩

/-- Witness for C8: adding the path [a, 1c] into a wrapper with siblings a and b
    leaves the sibling b untouched, and the digit-leading segment 1c is stored as
    _1c. -/
theorem c8_witness :
    subtreeAt (FW.add 9 w8 ["a", "1c"]) ["b"] = subtreeAt w8 ["b"] ∧
    ((mangle "1c").toList.head?.all (fun c => !c.isDigit)) = true :=
  ⟨(c8_add_preserves_siblings 9).1 w8 ["a", "1c"] ["b"] (by decide) (by decide),
   (c8_add_preserves_siblings 9).2 "1c"⟩

/-- Overwriting one heap cell leaves every other id unchanged. -/
theorem hget_hset_ne (i j : Nat) (d : NodeData) :
    ∀ h : Heap, j ≠ i → hget (hset h i d) j = hget h j := by
  intro h hne
  induction h with
  | nil => rfl
  | cons hd tl ih =>
      by_cases hh : hd.1 = i
      · simp only [hset, List.map_cons, if_pos hh, hget]
        rw [if_neg (fun he : i = j => hne he.symm),
            if_neg (fun he : hd.1 = j => hne (hh.symm.trans he).symm)]
        simpa [hset] using ih
      · simp only [hset, List.map_cons, if_neg hh, hget]
        by_cases hj : hd.1 = j
        · rw [if_pos hj, if_pos hj]
        · rw [if_neg hj, if_neg hj]
          simpa [hset] using ih

/-- Overwriting an existing heap cell is visible at that id. -/
theorem hget_hset_self (i : Nat) (d : NodeData) :
    ∀ h : Heap, (hget h i).isSome = true → hget (hset h i d) i = some d := by
  intro h
  induction h with
  | nil => intro hs; simp [hget] at hs
  | cons hd tl ih =>
      intro hs
      by_cases hh : hd.1 = i
      · simp only [hset, List.map_cons, if_pos hh, hget]
        simp
      · simp only [hset, List.map_cons, if_neg hh, hget, if_neg hh]
        simp only [hget, if_neg hh] at hs
        simpa [hset] using ih hs

/-- The parent-assignment fold does not touch ids outside the list. -/
theorem foldl_setParent_not_mem (pid : Nat) :
    ∀ (l : List Nat) (h : Heap) (x : Nat), x ∉ l →
      hget (l.foldl (setParentObj pid) h) x = hget h x := by
  intro l
  induction l with
  | nil => intro h x _; rfl
  | cons j tl ih =>
      intro h x hx
      have hxj : x ≠ j := fun he => hx (he ▸ List.mem_cons_self j tl)
      have hxtl : x ∉ tl := fun hm => hx (List.mem_cons_of_mem j hm)
      simp only [List.foldl_cons]
      rw [ih (setParentObj pid h j) x hxtl]
      unfold setParentObj
      cases hg : hget h j with
      | none => rfl
      | some dd => exact hget_hset_ne j x { dd with parent := some pid } h hxj

/-- The parent-assignment fold rewires exactly the listed ids. -/
theorem foldl_setParent_mem (pid : Nat) :
    ∀ (l : List Nat) (h : Heap) (x : Nat), l.Nodup → x ∈ l →
      hget (l.foldl (setParentObj pid) h) x =
        (hget h x).map (fun dd => { dd with parent := some pid }) := by
  intro l
  induction l with
  | nil => intro h x _ hx; cases hx
  | cons j tl ih =>
      intro h x hnd hx
      simp only [List.foldl_cons]
      rcases List.mem_cons.mp hx with he | hm
      · subst he
        have hxtl : x ∉ tl := (List.nodup_cons.mp hnd).1
        rw [foldl_setParent_not_mem pid tl _ x hxtl]
        unfold setParentObj
        cases hg : hget h x with
        | none => exact hg
        | some dd =>
            exact hget_hset_self x { dd with parent := some pid } h (by rw [hg]; rfl)
      · have hxj : x ≠ j := fun he =>
          ((List.nodup_cons.mp hnd).1 (he ▸ hm)).elim
        rw [ih (setParentObj pid h j) x (List.nodup_cons.mp hnd).2 hm]
        unfold setParentObj
        cases hg : hget h j with
        | none => rfl
        | some dd =>
            exact congrArg (Option.map (fun dd => { dd with parent := some pid }))
              (hget_hset_ne j x { dd with parent := some pid } h hxj)

/-- Two heaps that agree on an object's parent chain compute the same level and
    the same qualified name for it. -/
theorem frame_chain_agree :
    ∀ (fu : Nat) (r : Nat) (h h2 : Heap),
      (∀ x ∈ chainH h fu r, hget h2 x = hget h x) →
      levelH h2 fu r = levelH h fu r ∧ nameH h2 fu r = nameH h fu r := by
  intro fu
  induction fu with
  | zero =>
      intro r h h2 hag
      have hr := hag r (by simp [chainH])
      exact ⟨rfl, by simp [nameH, hr]⟩
  | succ fu ih =>
      intro r h h2 hag
      have hr := hag r (by simp [chainH])
      cases hg : hget h r with
      | none => constructor <;> simp [levelH, nameH, hr, hg]
      | some dd =>
          cases hp : dd.parent with
          | none => constructor <;> simp [levelH, nameH, hr, hg, hp]
          | some pid =>
              have hsub : ∀ x ∈ chainH h fu pid, hget h2 x = hget h x := by
                intro x hx
                apply hag
                simp [chainH, hg, hp, hx]
              obtain ⟨hl, hn⟩ := ih pid h h2 hsub
              constructor <;> simp [levelH, nameH, hr, hg, hp, hl, hn]

/-- A parentless cell has level 0 at every fuel. -/
theorem levelH_root (h : Heap) (i : Nat) (ln : String)
    (hroot : hget h i = some ⟨ln, none⟩) :
    ∀ fu : Nat, levelH h fu i = 0 := by
  intro fu
  cases fu with
  | zero => rfl
  | succ fu => simp [levelH, hroot]

/-- A parentless cell's qualified name is its local name at every fuel. -/
theorem nameH_root (h : Heap) (i : Nat) (ln : String)
    (hroot : hget h i = some ⟨ln, none⟩) :
    ∀ fu : Nat, nameH h fu i = ln := by
  intro fu
  cases fu with
  | zero => simp [nameH, hroot]
  | succ fu => simp [nameH, hroot]

/-- Every member is bounded by the foldr maximum. -/
theorem le_foldr_max : ∀ (l : List Nat) (x : Nat), x ∈ l → x ≤ l.foldr max 0 := by
  intro l
  induction l with
  | nil => intro x hx; cases hx
  | cons a tl ih =>
      intro x hx
      rcases List.mem_cons.mp hx with he | hm
      · subst he
        exact Nat.le_max_left x (tl.foldr max 0)
      · exact Nat.le_trans (ih x hm) (Nat.le_max_right a (tl.foldr max 0))

/-- A dict id outside every key resolves to none. -/
theorem dget_none_of_not_key :
    ∀ (dh : DictHeap) (i : Nat), (∀ pr ∈ dh, pr.1 ≠ i) → dget dh i = none := by
  intro dh
  induction dh with
  | nil => intro i _; rfl
  | cons hd tl ih =>
      intro i hk
      simp only [dget]
      rw [if_neg (hk hd (List.mem_cons_self hd tl))]
      exact ih i (fun pr hm => hk pr (List.mem_cons_of_mem hd hm))

/-- The fresh id is not yet allocated. -/
theorem dget_fresh_none (dh : DictHeap) : dget dh (freshId dh) = none := by
  apply dget_none_of_not_key
  intro pr hm he
  have hb : pr.1 ≤ (dh.map (fun x => x.1)).foldr max 0 :=
    le_foldr_max (dh.map (fun x => x.1)) pr.1 (List.mem_map_of_mem _ hm)
  rw [he] at hb
  simp [freshId] at hb

/-- Appending a fresh cell does not change an id already present. -/
theorem dget_append_left :
    ∀ (dh : DictHeap) (i : Nat) (pr2 : Nat × DictData), (dget dh i).isSome = true →
      dget (dh ++ [pr2]) i = dget dh i := by
  intro dh
  induction dh with
  | nil => intro i pr2 hs; simp [dget] at hs
  | cons hd tl ih =>
      intro i pr2 hs
      by_cases hh : hd.1 = i
      · simp only [List.cons_append, dget, if_pos hh]
      · simp only [List.cons_append, dget, if_neg hh]
        simp only [dget, if_neg hh] at hs
        exact ih i pr2 hs

/-- Appending a fresh cell makes its id resolve to it. -/
theorem dget_append_fresh :
    ∀ (dh : DictHeap) (nid : Nat) (d2 : DictData), dget dh nid = none →
      dget (dh ++ [(nid, d2)]) nid = some d2 := by
  intro dh
  induction dh with
  | nil => intro nid d2 _; simp [dget]
  | cons hd tl ih =>
      intro nid d2 hn
      by_cases hh : hd.1 = nid
      · simp [dget, hh] at hn
      · simp only [List.cons_append, dget, if_neg hh]
        simp only [dget, if_neg hh] at hn
        exact ih nid d2 hn

/-- C9: traverse's machine branch mutates the donor machine's node objects in
    place: the filtered level-0 states (the very ids the donor's registry keeps
    holding) get their parent reference overwritten, so the donor's own states
    afterwards report the new parent's qualified name as prefix and level
    parent+1 instead of their old root name and level 0; by contrast the
    dict-shaped branch deep-copies first, so the caller's dict cell is unchanged
    and the parent/ignore writes land on a freshly allocated copy. -/
theorem c9_embedding_mutates_donor_in_place
    (h : Heap) (fu : Nat) (donorIds : List Nat) (i parentId : Nat) (ln : String)
    (remap : List String) (dh : DictHeap) (did : Nat) (d : DictData) (ig : Bool)
    (par : Option Nat)
    (hnd : donorIds.Nodup) (hi : i ∈ donorIds)
    (hroot : hget h i = some ⟨ln, none⟩)
    (hrm : remap.contains ln = false)
    (hchain : ∀ j ∈ donorIds, j ∉ chainH h fu parentId)
    (hdd : dget dh did = some d) :
    i ∈ (embedStates h fu donorIds parentId remap).2 ∧
    hget (embedStates h fu donorIds parentId remap).1 i = some ⟨ln, some parentId⟩ ∧
    levelH (embedStates h fu donorIds parentId remap).1 (fu + 1) i =
      levelH h fu parentId + 1 ∧
    nameH (embedStates h fu donorIds parentId remap).1 (fu + 1) i =
      nameH h fu parentId ++ sep ++ ln ∧
    dget (dictBranchCopy dh did ig par).1 did = some d ∧
    (dictBranchCopy dh did ig par).2 = some (freshId dh) ∧
    dget (dictBranchCopy dh did ig par).1 (freshId dh) =
      some ⟨d.name, some (d.ignore.getD ig), par⟩ := by
  have hpred : (fun j => levelH h fu j == 0 && !(remap.contains (nameH h fu j))) i = true := by
    simp [levelH_root h i ln hroot fu, nameH_root h i ln hroot fu]
    simpa using hrm
  have hns : i ∈ donorIds.filter
      (fun j => levelH h fu j == 0 && !(remap.contains (nameH h fu j))) :=
    List.mem_filter.mpr ⟨hi, hpred⟩
  have hemb : embedStates h fu donorIds parentId remap =
      ((donorIds.filter
          (fun j => levelH h fu j == 0 && !(remap.contains (nameH h fu j)))).foldl
        (setParentObj parentId) h,
       donorIds.filter
          (fun j => levelH h fu j == 0 && !(remap.contains (nameH h fu j)))) := rfl
  have hndf : (donorIds.filter
      (fun j => levelH h fu j == 0 && !(remap.contains (nameH h fu j)))).Nodup :=
    List.Nodup.filter _ hnd
  have hgi : hget (embedStates h fu donorIds parentId remap).1 i =
      some ⟨ln, some parentId⟩ := by
    rw [hemb]
    rw [foldl_setParent_mem parentId _ h i hndf hns, hroot]
    rfl
  have hagree : ∀ x ∈ chainH h fu parentId,
      hget (embedStates h fu donorIds parentId remap).1 x = hget h x := by
    intro x hx
    rw [hemb]
    apply foldl_setParent_not_mem
    intro hmem
    exact hchain x (List.mem_filter.mp hmem).1 hx
  obtain ⟨hlv, hnm⟩ :=
    frame_chain_agree fu parentId h (embedStates h fu donorIds parentId remap).1 hagree
  have hdictA : dget (dictBranchCopy dh did ig par).1 did = some d := by
    simp only [dictBranchCopy, hdd]
    rw [dget_append_left dh did _ (by rw [hdd]; rfl)]
    exact hdd
  have hdictB : (dictBranchCopy dh did ig par).2 = some (freshId dh) := by
    simp [dictBranchCopy, hdd]
  have hdictC : dget (dictBranchCopy dh did ig par).1 (freshId dh) =
      some ⟨d.name, some (d.ignore.getD ig), par⟩ := by
    simp only [dictBranchCopy, hdd]
    exact dget_append_fresh dh (freshId dh) _ (dget_fresh_none dh)
  refine ⟨by rw [hemb]; exact hns, hgi, ?_, ?_, hdictA, hdictB, hdictC⟩
  · simp only [levelH, hgi, hlv]
  · simp only [nameH, hgi, hnm]

/-- Witness for C9: heap with parent N (id 0) and donor roots P (id 1), Q (id 2);
    embedding under id 0 rewires P in place (its name becomes N.P, its level 1),
    and the dict branch copies the dict at id 5 before writing. -/
theorem c9_witness :
    (1 : Nat) ∈ (embedStates [(0, ⟨"N", none⟩), (1, ⟨"P", none⟩), (2, ⟨"Q", none⟩)]
        1 [1, 2] 0 []).2 ∧
    hget (embedStates [(0, ⟨"N", none⟩), (1, ⟨"P", none⟩), (2, ⟨"Q", none⟩)]
        1 [1, 2] 0 []).1 1 = some ⟨"P", some 0⟩ ∧
    levelH (embedStates [(0, ⟨"N", none⟩), (1, ⟨"P", none⟩), (2, ⟨"Q", none⟩)]
        1 [1, 2] 0 []).1 2 1 =
      levelH [(0, ⟨"N", none⟩), (1, ⟨"P", none⟩), (2, ⟨"Q", none⟩)] 1 0 + 1 ∧
    nameH (embedStates [(0, ⟨"N", none⟩), (1, ⟨"P", none⟩), (2, ⟨"Q", none⟩)]
        1 [1, 2] 0 []).1 2 1 =
      nameH [(0, ⟨"N", none⟩), (1, ⟨"P", none⟩), (2, ⟨"Q", none⟩)] 1 0 ++ sep ++ "P" ∧
    dget (dictBranchCopy [(5, ⟨"S", none, none⟩)] 5 false (some 0)).1 5 =
      some ⟨"S", none, none⟩ ∧
    (dictBranchCopy [(5, ⟨"S", none, none⟩)] 5 false (some 0)).2 =
      some (freshId [(5, ⟨"S", none, none⟩)]) ∧
    dget (dictBranchCopy [(5, ⟨"S", none, none⟩)] 5 false (some 0)).1
        (freshId [(5, ⟨"S", none, none⟩)]) =
      some ⟨"S", some false, some 0⟩ :=
  c9_embedding_mutates_donor_in_place
    [(0, ⟨"N", none⟩), (1, ⟨"P", none⟩), (2, ⟨"Q", none⟩)] 1 [1, 2] 1 0 "P" []
    [(5, ⟨"S", none, none⟩)] 5 ⟨"S", none, none⟩ false (some 0)
    (by decide) (by decide) (by decide) (by decide) (by decide) (by decide)

/-- Level of a built chain: the ancestor's level plus the chain length. -/
theorem build_level (a : NState) :
    ∀ l : List (String × Bool), (build a l).level = a.level + l.length := by
  intro l
  induction l with
  | nil => simp [build]
  | cons pr rest ih =>
      simp only [build, NState.level, ih, List.length_cons]
      omega

/-- The alignment loop stops immediately when the levels already agree. -/
theorem alignLoop_eq_self (sl : Nat) (t tmp : NState) (h : tmp.level = sl) :
    ∀ fu : Nat, alignLoop sl t fu (some tmp) = .ok tmp := by
  intro fu
  cases fu <;> simp [alignLoop, h]

/-- nodesDown lists one node per chain element. -/
theorem nodesDown_length (a : NState) :
    ∀ l : List (String × Bool), (nodesDown a l).length = l.length := by
  intro l
  induction l with
  | nil => rfl
  | cons pr rest ih => simp [nodesDown, ih]

/-- Every node listed by nodesDown lies strictly below the given ancestor. -/
theorem nodesDown_level (a : NState) :
    ∀ l : List (String × Bool), ∀ s ∈ nodesDown a l, a.level < s.level := by
  intro l
  induction l with
  | nil => intro s hs; cases hs
  | cons pr rest ih =>
      intro s hs
      rcases List.mem_cons.mp hs with he | hm
      · subst he
        simp only [NState.level, build_level]
        omega
      · exact ih s hm

/-- One unfolding step of walkLoop on two child nodes. -/
theorem walkLoop_child_child (l1 l2 : String) (i1 i2 : Bool) (pp qq : NState) :
    walkLoop (NState.child l1 i1 pp) (NState.child l2 i2 qq) =
      (if qq.name = pp.name then .ok ([], NState.child l1 i1 pp)
       else (walkLoop pp qq).map (fun r => (NState.child l1 i1 pp :: r.1, r.2))) := by
  simp only [walkLoop]

/-- One unfolding step of enter_nested on a child node with a stop level. -/
theorem enter_nested_child (l : String) (i : Bool) (pp : NState) (lvl : Nat) :
    enter_nested (NState.child l i pp) (some lvl) =
      (if lvl = (NState.child l i pp).level then .ok [NState.child l i pp]
       else (enter_nested pp (some lvl)).map
              (fun L => L ++ [NState.child l i pp])) := by
  simp only [enter_nested]

/-- The equal-level walk on two aligned chains below a common ancestor whose
    names differ at every strict sublevel exits exactly the source-side nodes
    strictly below the ancestor, leaf first, and stops at level ancestor+1. -/
theorem walk_exact (a : NState) :
    ∀ (rp rq : List (String × Bool)),
      rp ≠ [] → rq.length = rp.length →
      (∀ k, 0 < k → k < rp.length →
        (build a (rp.drop k)).name ≠ (build a (rq.drop k)).name) →
      (walkLoop (build a rp) (build a rq)).map
          (fun r => (r.1 ++ [r.2], r.2.level)) =
        .ok (nodesDown a rp, a.level + 1) := by
  intro rp
  induction rp with
  | nil => intro rq h; exact absurd rfl h
  | cons p rp2 ih =>
      intro rq hcne hlen hna
      cases rq with
      | nil => simp at hlen
      | cons q rq2 =>
          cases rp2 with
          | nil =>
              cases rq2 with
              | nil =>
                  show (walkLoop (NState.child p.1 p.2 (build a []))
                      (NState.child q.1 q.2 (build a []))).map
                      (fun r => (r.1 ++ [r.2], r.2.level)) = _
                  rw [walkLoop_child_child]
                  rw [if_pos rfl]
                  simp [nodesDown, build, Except.map, NState.level]
              | cons _ _ => simp at hlen
          | cons p2 rp3 =>
              cases rq2 with
              | nil => simp at hlen
              | cons q2 rq3 =>
                  have hstep : (build a ((p :: p2 :: rp3).drop 1)).name ≠
                      (build a ((q :: q2 :: rq3).drop 1)).name := by
                    apply hna 1 (by omega)
                    simp
                  simp only [List.drop_succ_cons, List.drop_zero] at hstep
                  have hcond : ¬ ((build a (q2 :: rq3)).name =
                      (build a (p2 :: rp3)).name) := fun he => hstep he.symm
                  have hna2 : ∀ k, 0 < k → k < (p2 :: rp3).length →
                      (build a ((p2 :: rp3).drop k)).name ≠
                        (build a ((q2 :: rq3).drop k)).name := by
                    intro k hk0 hkl
                    have hj := hna (k + 1) (by omega)
                      (by simp only [List.length_cons] at hkl ⊢; omega)
                    simpa only [List.drop_succ_cons] using hj
                  have ihh := ih (q2 :: rq3) (by simp)
                    (by simp only [List.length_cons] at hlen ⊢; omega) hna2
                  show (walkLoop (NState.child p.1 p.2 (build a (p2 :: rp3)))
                      (NState.child q.1 q.2 (build a (q2 :: rq3)))).map
                      (fun r => (r.1 ++ [r.2], r.2.level)) = _
                  rw [walkLoop_child_child]
                  rw [if_neg hcond]
                  cases hwl : walkLoop (build a (p2 :: rp3)) (build a (q2 :: rq3)) with
                  | error e =>
                      rw [hwl] at ihh
                      simp [Except.map] at ihh
                  | ok r0 =>
                      rw [hwl] at ihh
                      simp only [Except.map, Except.ok.injEq, Prod.mk.injEq] at ihh
                      simp only [Except.map, Except.ok.injEq, Prod.mk.injEq]
                      constructor
                      · simp only [List.cons_append, nodesDown]
                        rw [ihh.1]
                        simp [nodesDown]
                      · exact ihh.2

/-- Entering the destination with stop level ancestor+1 enters exactly the
    destination-side nodes strictly below the ancestor, ancestor first. -/
theorem enter_exact (a : NState) :
    ∀ rq : List (String × Bool), rq ≠ [] →
      enter_nested (build a rq) (some (a.level + 1)) =
        .ok ((nodesDown a rq).reverse) := by
  intro rq
  induction rq with
  | nil => intro h; exact absurd rfl h
  | cons q rq2 ih =>
      intro _
      cases rq2 with
      | nil =>
          have hl : a.level + 1 = (NState.child q.1 q.2 (build a [])).level := by
            simp [NState.level, build]
          show enter_nested (NState.child q.1 q.2 (build a []))
              (some (a.level + 1)) = _
          rw [enter_nested_child, if_pos hl]
          simp [nodesDown, build]
      | cons q2 rq3 =>
          have hlne : ¬ (a.level + 1 =
              (NState.child q.1 q.2 (build a (q2 :: rq3))).level) := by
            simp only [NState.level, build_level, List.length_cons]
            omega
          show enter_nested (NState.child q.1 q.2 (build a (q2 :: rq3)))
              (some (a.level + 1)) = _
          rw [enter_nested_child, if_neg hlne, ih (by simp)]
          simp [nodesDown, Except.map, List.reverse_cons]

/-- One unfolding step of exit_nested on a child node with a target. -/
theorem exit_nested_child (fuel : Nat) (l : String) (i : Bool) (pp t : NState) :
    exit_nested fuel (NState.child l i pp) (some t) =
      (if 0 < t.level then
        if t.level < (NState.child l i pp).level then
          (exit_nested fuel pp (some t)).map
            (fun r => (NState.child l i pp :: r.1, r.2))
        else
          match alignLoop (NState.child l i pp).level t fuel (some t) with
          | .error e => .error e
          | .ok tmp =>
              (walkLoop (NState.child l i pp) tmp).map
                (fun r => (r.1 ++ [r.2], r.2.level))
      else
        (exit_nested fuel pp none).map
          (fun r => (NState.child l i pp :: r.1, r.2))) := by
  simp only [exit_nested]

/-- exit_nested from a source chain strictly below the deepest common ancestor,
    with the target on another chain below the same ancestor at most one level
    deeper, exits exactly the source-side nodes strictly below the ancestor
    (leaf first) and returns level ancestor+1. -/
theorem exit_exact (a : NState) :
    ∀ (rp rq : List (String × Bool)) (fuel : Nat),
      rp ≠ [] → rq ≠ [] → 1 ≤ fuel →
      rq.length ≤ rp.length + 1 →
      (∀ j, 0 < j → j ≤ min rp.length rq.length →
        (build a (rp.drop (rp.length - j))).name ≠
          (build a (rq.drop (rq.length - j))).name) →
      exit_nested fuel (build a rp) (some (build a rq)) =
        .ok (nodesDown a rp, a.level + 1) := by
  intro rp
  induction rp with
  | nil => intro rq fuel h; exact absurd rfl h
  | cons p rp2 ih =>
      intro rq fuel _ hrq hfuel hterm hne
      have hm1 : 1 ≤ rq.length := List.length_pos.mpr hrq
      have hc1 : 0 < (build a rq).level := by rw [build_level]; omega
      show exit_nested fuel (NState.child p.1 p.2 (build a rp2))
          (some (build a rq)) = _
      rw [exit_nested_child, if_pos hc1]
      have hslv : (NState.child p.1 p.2 (build a rp2)).level =
          a.level + rp2.length + 1 := by
        simp only [NState.level, build_level]
      by_cases hcmp : rq.length ≤ rp2.length
      · have hlt : (build a rq).level <
            (NState.child p.1 p.2 (build a rp2)).level := by
          rw [build_level, hslv]; omega
        rw [if_pos hlt]
        have hrp2 : rp2 ≠ [] := by
          intro he
          rw [he] at hcmp
          simp only [List.length_nil, Nat.le_zero] at hcmp
          omega
        have hne2 : ∀ j, 0 < j → j ≤ min rp2.length rq.length →
            (build a (rp2.drop (rp2.length - j))).name ≠
              (build a (rq.drop (rq.length - j))).name := by
          intro j hj0 hjm
          have hjm2 : j ≤ min (p :: rp2).length rq.length := by
            simp only [List.length_cons, Nat.le_min] at hjm ⊢
            omega
          have hj := hne j hj0 hjm2
          have hd : (p :: rp2).drop ((p :: rp2).length - j) =
              rp2.drop (rp2.length - j) := by
            have he : (p :: rp2).length - j = (rp2.length - j) + 1 := by
              simp only [List.length_cons]
              simp only [Nat.le_min] at hjm
              omega
            rw [he, List.drop_succ_cons]
          rw [hd] at hj
          exact hj
        rw [ih rq fuel hrp2 hrq hfuel (by omega) hne2]
        simp [Except.map, nodesDown]
      · have hnlt : ¬ ((build a rq).level <
            (NState.child p.1 p.2 (build a rp2)).level) := by
          rw [build_level, hslv]; omega
        rw [if_neg hnlt]
        have hterm2 : rq.length = rp2.length + 1 ∨ rq.length = rp2.length + 2 := by
          simp only [List.length_cons] at hterm
          omega
        rcases hterm2 with hm | hm
        · have halign : alignLoop (NState.child p.1 p.2 (build a rp2)).level
              (build a rq) fuel (some (build a rq)) = .ok (build a rq) :=
            alignLoop_eq_self _ _ _ (by rw [build_level, hslv, hm]; omega) fuel
          rw [halign]
          have hwne : ∀ k, 0 < k → k < (p :: rp2).length →
              (build a ((p :: rp2).drop k)).name ≠ (build a (rq.drop k)).name := by
            intro k hk0 hkl
            simp only [List.length_cons] at hkl
            have hj := hne ((p :: rp2).length - k)
              (by simp only [List.length_cons]; omega)
              (by simp only [List.length_cons, Nat.le_min]; omega)
            have e3 : (p :: rp2).length - ((p :: rp2).length - k) = k := by
              simp only [List.length_cons]; omega
            have e4 : rq.length - ((p :: rp2).length - k) = k := by
              simp only [List.length_cons]; omega
            rw [e3, e4] at hj
            exact hj
          exact walk_exact a (p :: rp2) rq (by simp)
            (by simp only [List.length_cons]; omega) hwne
        · obtain ⟨fu, rfl⟩ : ∃ fu, fuel = fu + 1 := ⟨fuel - 1, by omega⟩
          cases rq with
          | nil => exact absurd rfl hrq
          | cons qh rq2 =>
              have hlvne : ¬ ((build a (qh :: rq2)).level =
                  (NState.child p.1 p.2 (build a rp2)).level) := by
                rw [build_level, hslv]
                simp only [List.length_cons] at hm ⊢
                omega
              have hlv2 : (build a rq2).level =
                  (NState.child p.1 p.2 (build a rp2)).level := by
                rw [build_level, hslv]
                simp only [List.length_cons] at hm
                omega
              have halign : alignLoop (NState.child p.1 p.2 (build a rp2)).level
                  (build a (qh :: rq2)) (fu + 1) (some (build a (qh :: rq2))) =
                  .ok (build a rq2) := by
                simp only [alignLoop]
                rw [if_neg hlvne]
                rw [show (build a (qh :: rq2)).parentOpt =
                    some (build a rq2) from rfl]
                exact alignLoop_eq_self _ _ _ hlv2 fu
              rw [halign]
              have hwne : ∀ k, 0 < k → k < (p :: rp2).length →
                  (build a ((p :: rp2).drop k)).name ≠
                    (build a (rq2.drop k)).name := by
                intro k hk0 hkl
                simp only [List.length_cons] at hkl
                have hj := hne ((p :: rp2).length - k)
                  (by simp only [List.length_cons]; omega)
                  (by simp only [List.length_cons, Nat.le_min]
                      simp only [List.length_cons] at hm
                      omega)
                have e3 : (p :: rp2).length - ((p :: rp2).length - k) = k := by
                  simp only [List.length_cons]; omega
                have e4 : (qh :: rq2).length - ((p :: rp2).length - k) = k + 1 := by
                  simp only [List.length_cons] at hm ⊢
                  omega
                rw [e3, e4, List.drop_succ_cons] at hj
                exact hj
              exact walk_exact a (p :: rp2) rq2 (by simp)
                (by simp only [List.length_cons] at hm ⊢
                    omega) hwne

/-- C3 amended: for a source leaf at level N and a destination leaf at level M
    whose chains hang below their deepest common ancestor a at level L (the
    qualified names of the two chains differ at every aligned level strictly
    below L down to min(N,M), which makes a the deepest common ancestor and
    neither endpoint an ancestor of the other), and M at most N+1 (a deeper
    destination makes the alignment loop of exit_nested run forever, see the C2
    record), executing the transition fires exactly the N−L exit hooks of the
    source chain strictly below a in leaf-to-ancestor order and exactly the M−L
    enter hooks of the destination chain strictly below a in ancestor-to-leaf
    order, and fires no hook on a or on any node above it. -/
theorem c3_amended_exit_enter (a : NState) (rp rq : List (String × Bool))
    (fuel : Nat) (hrp : rp ≠ []) (hrq : rq ≠ []) (hfuel : 1 ≤ fuel)
    (hterm : rq.length ≤ rp.length + 1)
    (hne : ∀ j, 0 < j → j ≤ min rp.length rq.length →
      (build a (rp.drop (rp.length - j))).name ≠
        (build a (rq.drop (rq.length - j))).name) :
    change_state fuel (build a rp) (build a rq) =
      .ok (nodesDown a rp, (nodesDown a rq).reverse) ∧
    (nodesDown a rp).length = rp.length ∧
    (nodesDown a rq).length = rq.length ∧
    (∀ s ∈ nodesDown a rp, a.level < s.level) ∧
    (∀ s ∈ nodesDown a rq, a.level < s.level) := by
  refine ⟨?_, nodesDown_length a rp, nodesDown_length a rq,
    nodesDown_level a rp, nodesDown_level a rq⟩
  have he1 := exit_exact a rp rq fuel hrp hrq hfuel hterm hne
  have he2 := enter_exact a rq hrq
  simp only [change_state, he1, he2]

/-- Witness for C3 amended: the spec's own scenario, tree A containing B and C
    with D below B; transition from A.B.D (level 2) to A.C (level 1), common
    ancestor A (level 0): exits [A.B.D, A.B], enters [A.C]. -/
theorem c3_amended_witness :
    change_state 1 (build stA [("D", false), ("B", false)])
        (build stA [("C", false)]) =
      .ok (nodesDown stA [("D", false), ("B", false)],
           (nodesDown stA [("C", false)]).reverse) :=
  (c3_amended_exit_enter stA [("D", false), ("B", false)] [("C", false)] 1
    (by decide) (by decide) (by decide) (by decide)
    (by
      intro j hj0 hj1
      have hj : j = 1 := by
        simp only [List.length_cons, List.length_nil, Nat.le_min] at hj1
        omega
      subst hj
      decide)).1
